import Mathlib

/-!
# Verification of the `austender_analyser` collector

A shallow embedding, in Lean 4, of the parts of the Go collector
(`collector/cmd/{root,cache,datalake,sources}.go`) that the verified claims
concern, together with theorems settling each claim.

Modelling conventions:
* `decimal.Decimal` (exact decimal arithmetic from shopspring/decimal) is
  modelled by `ℚ`; addition and order on decimals agree with those of `ℚ`.
* `time.Time` (UTC instants) is modelled as `Int`, the number of seconds
  since the Unix epoch.  The Go zero time `time.Time{}` is Jan 1, year 1 UTC,
  whose Unix second count is `goZeroTime`.  `t.After u` is `u < t`,
  `t.Before u` is `t < u`, `t.IsZero` is `t = goZeroTime`.
  `AddDate(0,0,n)` in UTC adds exactly `n * 86400` seconds.
* Go strings are Lean `String`s; the identifiers involved are ASCII, so
  byte-indexed operations are modelled by character-indexed ones.
* Filesystem / SQLite state is carried explicitly (association lists,
  explicit environment records); the callbacks (`OnMatch`, `OnAnyMatch`)
  are instrumented as event logs so that "the sink is invoked" is a
  statement about the log.
-/

/-! ## Time: seconds since the Unix epoch, and civil-calendar conversion -/

/-- Unix seconds of the Go zero time `time.Time{}` (Jan 1, year 1, 00:00 UTC). -/
def goZeroTime : Int := -62135596800

/-- Seconds per day; `AddDate(0,0,n)` on a UTC instant adds `n * secPerDay`. -/
def secPerDay : Int := 86400

/-- Days from the civil epoch 1970-01-01 to the civil date `y-m-d`
(Hinnant's `days_from_civil`; also Go's internal date→absolute conversion).
The formula is linear in `d`, so out-of-range days normalize forward exactly
as Go's `time.Date` does (e.g. Feb 29 of a non-leap year becomes Mar 1). -/
def daysFromCivil (y m d : Int) : Int :=
  let y := y - (if m ≤ 2 then 1 else 0)
  let era := (if 0 ≤ y then y else y - 399) / 400
  let yoe := y - era * 400
  let mp := if 2 < m then m - 3 else m + 9
  let doy := (153 * mp + 2) / 5 + d - 1
  let doe := yoe * 365 + yoe / 4 - yoe / 100 + doy
  era * 146097 + doe - 719468

/-- Inverse of `daysFromCivil`: the civil date `(y, m, d)` of a day count. -/
def civilFromDays (z : Int) : Int × Int × Int :=
  let z := z + 719468
  let era := (if 0 ≤ z then z else z - 146096) / 146097
  let doe := z - era * 146097
  let yoe := (doe - doe / 1460 + doe / 36524 - doe / 146096) / 365
  let y := yoe + era * 400
  let doy := doe - (365 * yoe + yoe / 4 - yoe / 100)
  let mp := (5 * doy + 2) / 153
  let d := doy - (153 * mp + 2) / 5 + 1
  let m := mp + (if mp < 10 then 3 else -9)
  (y + (if m ≤ 2 then 1 else 0), m, d)

/-- The UTC instant (Unix seconds) of midnight on the civil date `y-m-d`. -/
def dateSec (y m d : Int) : Int := daysFromCivil y m d * secPerDay

/-- Civil `(year, month, day)` of a UTC instant. -/
def timeYMD (t : Int) : Int × Int × Int := civilFromDays (Int.fdiv t secPerDay)

/-- `time.Time.AddDate(n, 0, 0)` in UTC: same month/day/clock, year shifted
by `n`, with Go's forward normalization of out-of-range days. -/
def addYearsGo (n t : Int) : Int :=
  let days := Int.fdiv t secPerDay
  let rem := Int.fmod t secPerDay
  let c := civilFromDays days
  daysFromCivil (c.1 + n) c.2.1 c.2.2 * secPerDay + rem

/-! ## Go string helpers used by the collector -/

/-- Whitespace characters trimmed by `strings.TrimSpace` (ASCII subset). -/
def goIsSpace (c : Char) : Bool :=
  c = ' ' || c = '\t' || c = '\n' || c = '\r' || c = '\x0b' || c = '\x0c'

/-- `strings.TrimSpace` (ASCII inputs). -/
def strTrimSpace (s : String) : String :=
  String.mk (((s.toList.dropWhile goIsSpace).reverse.dropWhile goIsSpace).reverse)

/-- `strings.ToLower` (ASCII inputs). -/
def strToLower (s : String) : String :=
  String.mk (s.toList.map Char.toLower)

/-- Does the character list `p` occur at the head of `l`? -/
def leadsWith : List Char → List Char → Bool
  | [], _ => true
  | _ :: _, [] => false
  | p :: ps, c :: cs => p = c && leadsWith ps cs

/-- Index of the first occurrence of `pat` in `l`, if any
(`strings.Index` returns `-1` for `none`). -/
def firstIdxOfSub (l pat : List Char) : Option Nat :=
  match l with
  | [] => if pat.isEmpty then some 0 else none
  | _ :: cs =>
    if leadsWith pat l then some 0
    else (firstIdxOfSub cs pat).map (· + 1)

/-- `strings.Contains` (substring occurrence). -/
def strContainsSub (hay needle : String) : Bool :=
  (firstIdxOfSub hay.toList needle.toList).isSome

/-- `strings.EqualFold` (ASCII inputs): case-insensitive equality. -/
def strEqualFold (a b : String) : Bool :=
  strToLower a = strToLower b

/-- `strings.ReplaceAll s " " "_"`. -/
def strSpacesToUnderscores (s : String) : String :=
  String.mk (s.toList.map fun c => if c = ' ' then '_' else c)

/-! ## SQLite checkpoint store (`cache.go`: `loadCheckpoint` / `saveCheckpoint`)

The `checkpoints(key TEXT PRIMARY KEY, last_run TEXT)` table is modelled as an
association list from key to the stored instant (RFC3339 second precision). -/

/-- The `checkpoints` table: one row per key. -/
abbrev CheckpointStore := List (String × Int)

/-- Look up a key in an association list (first matching entry). -/
def assocFind (l : List (String × Int)) (k : String) : Option Int :=
  match l with
  | [] => none
  | (k', v) :: rest => if k' = k then some v else assocFind rest k

/-- `saveCheckpoint`: `INSERT ... ON CONFLICT(key) DO UPDATE SET last_run =
excluded.last_run` — an unconditional upsert of the new timestamp. -/
def saveCheckpoint (store : CheckpointStore) (key : String) (t : Int) : CheckpointStore :=
  match store with
  | [] => [(key, t)]
  | (k, v) :: rest =>
    if k = key then (k, t) :: rest else (k, v) :: saveCheckpoint rest key t

/-- `loadCheckpoint`: the stored instant, or the zero time when no row exists. -/
def loadCheckpoint (store : CheckpointStore) (key : String) : Int :=
  (assocFind store key).getD goZeroTime

theorem assocFind_saveCheckpoint_self (store : CheckpointStore) (key : String) (t : Int) :
    assocFind (saveCheckpoint store key t) key = some t := by
  induction store with
  | nil => simp [saveCheckpoint, assocFind]
  | cons p rest ih =>
    by_cases h : p.1 = key
    · simp [saveCheckpoint, h, assocFind]
    · simp [saveCheckpoint, h, assocFind, ih]

/-- C5 counterexample: storing 100 then saving 50 leaves 50, not `max 100 50`. -/
theorem saveCheckpoint_moves_backward :
    loadCheckpoint (saveCheckpoint (saveCheckpoint [] "s=federal|k=|c=|a=|d=" 100)
        "s=federal|k=|c=|a=|d=" 50) "s=federal|k=|c=|a=|d=" = 50 ∧
      (50 : Int) ≠ max 100 50 := by
  constructor
  · rfl
  · decide

/-- C5 (amended): checkpoint writes are last-write-wins — after
`saveCheckpoint key t'` the stored value for `key` is exactly `t'`,
whatever was stored before (so a checkpoint can move backward in time). -/
theorem saveCheckpoint_last_write_wins (store : CheckpointStore) (key : String) (t t' : Int)
    (_h : loadCheckpoint store key = t) :
    loadCheckpoint (saveCheckpoint store key t') key = t' := by
  simp [loadCheckpoint, assocFind_saveCheckpoint_self]

/-- C5 witness: the amended last-write-wins theorem at a concrete store. -/
theorem saveCheckpoint_last_write_wins_witness :
    loadCheckpoint (saveCheckpoint [("k", 100)] "k" 50) "k" = 50 :=
  saveCheckpoint_last_write_wins [("k", 100)] "k" 100 50 (by rfl)

/-! ## Money: `decimal.Decimal` modelled as `ℚ` -/

/-- `decimal.Decimal`: exact decimal arithmetic, modelled by `ℚ`. -/
abbrev Decimal := ℚ

/-! ## OCDS release model (`root.go`) -/

/-- `ocdsParty`. -/
structure ocdsParty where
  name : String
  roles : List String
deriving DecidableEq, Repr

/-- `ocdsTender`. -/
structure ocdsTender where
  description : String
  procurementMethodDetails : String
deriving DecidableEq, Repr

/-- `ocdsAmendment`. -/
structure ocdsAmendment where
  id : String
  amendedvalue : Decimal
  contractamendmentvalue : Decimal
deriving DecidableEq, Repr

/-- `ocdsValue`. -/
structure ocdsValue where
  amount : Decimal
deriving DecidableEq, Repr

/-- `ocdsContract`. -/
structure ocdsContract where
  id : String
  title : String
  description : String
  value : Option ocdsValue
  amendments : List ocdsAmendment
deriving DecidableEq, Repr

/-- `ocdsRelease`.  The `date` field of the JSON is an RFC3339 string; it is
modelled by its parsed instant, `none` standing for an empty or unparseable
string (`parseReleaseTime` maps those to the zero time). -/
structure ocdsRelease where
  id : String
  ocid : String
  date : Option Int
  tag : List String
  parties : List ocdsParty
  contracts : List ocdsContract
  tender : Option ocdsTender
deriving DecidableEq, Repr

/-- `parseReleaseTime`: RFC3339 parse, zero time on empty/unparseable input. -/
def parseReleaseTime : Option Int → Int
  | none => goZeroTime
  | some t => t

/-- `isContractRelease`: a tag equal to `contract` or `contractAmendment`. -/
def isContractRelease (rel : ocdsRelease) : Bool :=
  rel.tag.any fun tag => tag = "contract" || tag = "contractAmendment"

/-- The raw contract id picked by `canonicalContractID` before stripping:
the first contract's id, falling back to its first amendment's id. -/
def rawContractID (rel : ocdsRelease) : Option String :=
  match rel.contracts with
  | [] => none
  | contract :: _ =>
    let id := if contract.id = "" then
        (match contract.amendments with
         | [] => ""
         | amend :: _ => amend.id)
      else contract.id
    if id = "" then none else some id

/-- `canonicalContractID`: the raw contract id truncated at the first
occurrence of `"-A"` (`strings.Index`) when that occurrence is at a
positive index. -/
def canonicalContractID (rel : ocdsRelease) : Option String :=
  match rawContractID rel with
  | none => none
  | some id =>
    match firstIdxOfSub id.toList ['-', 'A'] with
    | some idx => if 0 < idx then some (String.mk (id.toList.take idx)) else some id
    | none => some id

/-- `releaseValue`: amendment-aware value extraction. -/
def releaseValue (rel : ocdsRelease) : Option Decimal :=
  match rel.contracts with
  | [] => none
  | contract :: _ =>
    let isAmendment := rel.tag.any fun tag => tag = "contractAmendment"
    let amendResult : Option Decimal :=
      if isAmendment then
        match contract.amendments with
        | [] => none
        | amend :: _ =>
          if 0 < amend.amendedvalue then some amend.amendedvalue
          else if 0 < amend.contractamendmentvalue then
            some ((match contract.value with
                   | some v => v.amount
                   | none => 0) + amend.contractamendmentvalue)
          else none
      else none
    match amendResult with
    | some v => some v
    | none =>
      match contract.value with
      | none => none
      | some v => some v.amount

/-- `ContractsText`: title and description of the first contract. -/
def contractsText (rel : ocdsRelease) : String :=
  match rel.contracts with
  | [] => ""
  | contract :: _ => contract.title ++ " " ++ contract.description

/-- `TenderText`. -/
def tenderText (rel : ocdsRelease) : String :=
  match rel.tender with
  | none => ""
  | some tender => tender.description ++ " " ++ tender.procurementMethodDetails

/-- `contractTitle`. -/
def contractTitle (rel : ocdsRelease) : String :=
  match rel.contracts with
  | [] => ""
  | contract :: _ => contract.title

/-- `primarySupplier`: first party with role `supplier` (case-insensitive),
else the first party, else empty. -/
def primarySupplier (rel : ocdsRelease) : String :=
  match rel.parties.find? (fun party => party.roles.any fun role => strEqualFold role "supplier") with
  | some party => party.name
  | none =>
    match rel.parties with
    | party :: _ => party.name
    | [] => ""

/-- `primaryAgency`: first party with role `procuringEntity` or `buyer`. -/
def primaryAgency (rel : ocdsRelease) : String :=
  match rel.parties.find? (fun party =>
      party.roles.any fun role => strEqualFold role "procuringEntity" || strEqualFold role "buyer") with
  | some party => party.name
  | none => ""

/-- `releaseContainsKeyword`: case-insensitive substring match over id, ocid,
contract text, tender text and the supplier name (empty haystacks skipped). -/
def releaseContainsKeyword (rel : ocdsRelease) (keyword : String) : Bool :=
  let needle := strToLower keyword
  [rel.id, rel.ocid, contractsText rel, tenderText rel, primarySupplier rel].any
    fun text => text ≠ "" && strContainsSub (strToLower text) needle

/-! ## Search requests and filters -/

/-- `SearchRequest` (callback fields are modelled as instrumented logs in the
aggregator and the cache layer rather than as function fields). -/
structure SearchRequest where
  keyword : String := ""
  company : String := ""
  agency : String := ""
  source : String := ""
  startDate : Int := goZeroTime
  endDate : Int := goZeroTime
  dateType : String := ""
  lookbackPeriod : Int := 0
deriving DecidableEq, Repr

/-- `matchesFilters`: keyword, company and agency predicates (all must pass). -/
def matchesFilters (rel : ocdsRelease) (req : SearchRequest) : Bool :=
  let keyword := strTrimSpace req.keyword
  let company := strTrimSpace req.company
  let agency := strTrimSpace req.agency
  (keyword = "" || releaseContainsKeyword rel keyword) &&
  (company = "" || strContainsSub (strToLower (primarySupplier rel)) (strToLower company)) &&
  (agency = "" || strContainsSub (strToLower (primaryAgency rel)) (strToLower agency))

/-- `defaultSourceID`. -/
def defaultSourceID : String := "federal"

/-- `normalizeSourceID`: trim, lowercase, default `federal` when empty. -/
def normalizeSourceID (id : String) : String :=
  let cleaned := strToLower (strTrimSpace id)
  if cleaned = "" then defaultSourceID else cleaned

/-- `MatchSummary`. -/
structure MatchSummary where
  contractID : String := ""
  releaseID : String := ""
  ocid : String := ""
  source : String := ""
  supplier : String := ""
  agency : String := ""
  title : String := ""
  amount : Decimal := 0
  releaseDate : Int := goZeroTime
  isUpdate : Bool := false
deriving DecidableEq, Repr

/-! ## Contract aggregator (`root.go`: `contractAggregator`) -/

/-- `contractAggregate`: latest kept value and its release instant. -/
structure contractAggregate where
  value : Decimal
  updatedAt : Int
deriving DecidableEq, Repr

/-- Association-list lookup for aggregates (Go map access). -/
def aggFind (l : List (String × contractAggregate)) (k : String) : Option contractAggregate :=
  match l with
  | [] => none
  | (k', v) :: rest => if k' = k then some v else aggFind rest k

/-- Go map assignment `m[k] = v`: replace in place, or append a new key. -/
def aggStore (l : List (String × contractAggregate)) (k : String) (v : contractAggregate) :
    List (String × contractAggregate) :=
  match l with
  | [] => [(k, v)]
  | (k', v') :: rest =>
    if k' = k then (k', v) :: rest else (k', v') :: aggStore rest k v

/-- Aggregator state.  `anyMatchLog` records the invocations of the
`sink` callback (`OnAnyMatch`), `matchLog` those of `filters.OnMatch`. -/
structure AggState where
  filters : SearchRequest
  aggregates : List (String × contractAggregate)
  anyMatchLog : List MatchSummary
  matchLog : List MatchSummary
deriving Repr

/-- `newContractAggregator`: normalizes the request's source. -/
def newContractAggregator (req : SearchRequest) : AggState :=
  { filters := { req with source := normalizeSourceID req.source },
    aggregates := [], anyMatchLog := [], matchLog := [] }

/-- The `MatchSummary` built inside `process`. -/
def processSummary (filters : SearchRequest) (rel : ocdsRelease) (contractID : String)
    (amount : Decimal) : MatchSummary :=
  { source := normalizeSourceID filters.source,
    contractID := contractID,
    releaseID := rel.id,
    ocid := rel.ocid,
    supplier := primarySupplier rel,
    agency := primaryAgency rel,
    title := contractTitle rel,
    amount := amount,
    releaseDate := parseReleaseTime rel.date }

/-- `contractAggregator.process`, instruction for instruction.  Note the
early guard: it tests `matchesFilters` *before* the sink call, so the sink
is in fact never invoked for a release that fails the user filters (the
second `matchesFilters` test below is dead code). -/
def process (st : AggState) (rel : ocdsRelease) : AggState :=
  if ¬ (isContractRelease rel ∧ matchesFilters rel st.filters) then st
  else
    match canonicalContractID rel with
    | none => st
    | some contractID =>
      match releaseValue rel with
      | none => st
      | some amount =>
        if amount ≤ 0 then st
        else
          let releaseTime := parseReleaseTime rel.date
          let summary := processSummary st.filters rel contractID amount
          -- `if a.sink != nil { a.sink(summary) }` — the sink invocation.
          let st := { st with anyMatchLog := st.anyMatchLog ++ [summary] }
          if ¬ matchesFilters rel st.filters then st
          else
            match aggFind st.aggregates contractID with
            | some entry =>
              if releaseTime ≤ entry.updatedAt then st
              else
                { st with
                  aggregates := aggStore st.aggregates contractID ⟨amount, releaseTime⟩,
                  matchLog := st.matchLog ++ [{ summary with isUpdate := true }] }
            | none =>
              { st with
                aggregates := aggStore st.aggregates contractID ⟨amount, releaseTime⟩,
                matchLog := st.matchLog ++ [summary] }

/-- `contractAggregator.total`: sum of the kept values. -/
def aggTotal (st : AggState) : Decimal :=
  st.aggregates.foldl (fun acc p => acc + p.2.value) 0

/-- Run the aggregator over a sequence of releases (the order in which
`fetchAll` delivers them to `consume`). -/
def runAggregator (req : SearchRequest) (rels : List ocdsRelease) : AggState :=
  rels.foldl process (newContractAggregator req)

/-! ## C2: the aggregator keeps the latest release per canonical contract id -/

/-- The filters actually stored by `newContractAggregator`. -/
def aggFilters (req : SearchRequest) : SearchRequest :=
  { req with source := normalizeSourceID req.source }

/-- The aggregate entry produced from a release. -/
def releaseToAgg (r : ocdsRelease) : contractAggregate :=
  ⟨(releaseValue r).getD 0, parseReleaseTime r.date⟩

/-- A release that reaches the aggregation step: contract-tagged, passing
the user filters, and carrying a positive value. -/
def aggEligible (filters : SearchRequest) (r : ocdsRelease) : Bool :=
  isContractRelease r && matchesFilters r filters &&
    (match releaseValue r with
     | some a => !(a ≤ 0)
     | none => false)

/-- Is a release relevant to the entry of contract id `cid`? -/
def relevantTo (filters : SearchRequest) (cid : String) (r : ocdsRelease) : Bool :=
  aggEligible filters r && decide (canonicalContractID r = some cid)

/-- The releases of a run that are relevant to a given canonical contract id. -/
def aggRelevant (filters : SearchRequest) (cid : String) (rels : List ocdsRelease) :
    List ocdsRelease :=
  rels.filter fun r =>
    aggEligible filters r && decide (canonicalContractID r = some cid)

/-- The relevance filter of `aggRelevant` is `relevantTo`. -/
theorem aggRelevant_eq_filter (filters : SearchRequest) (cid : String)
    (rels : List ocdsRelease) :
    aggRelevant filters cid rels = rels.filter (relevantTo filters cid) := rfl

/-- One step of the per-contract "latest wins" recurrence (the effect of
`process` on the entry of a fixed contract id). -/
def keptStep (filters : SearchRequest) (cid : String) (acc : Option contractAggregate)
    (r : ocdsRelease) : Option contractAggregate :=
  if relevantTo filters cid r then
    match acc with
    | none => some (releaseToAgg r)
    | some e => if e.updatedAt < parseReleaseTime r.date then some (releaseToAgg r) else acc
  else acc

/-- "Latest release wins, first among equal dates" selection. -/
def latestFirst (l : List ocdsRelease) : Option ocdsRelease :=
  l.foldl (fun acc r =>
    match acc with
    | none => some r
    | some b => if parseReleaseTime b.date < parseReleaseTime r.date then some r else acc) none

theorem aggFind_aggStore_self (l : List (String × contractAggregate)) (k : String)
    (v : contractAggregate) : aggFind (aggStore l k v) k = some v := by
  induction l with
  | nil => simp [aggStore, aggFind]
  | cons p rest ih =>
    by_cases h : p.1 = k
    · simp [aggStore, h, aggFind]
    · simp [aggStore, h, aggFind, ih]

theorem aggFind_aggStore_other (l : List (String × contractAggregate)) (k k' : String)
    (v : contractAggregate) (h : k ≠ k') : aggFind (aggStore l k v) k' = aggFind l k' := by
  induction l with
  | nil => simp [aggStore, aggFind, h]
  | cons p rest ih =>
    by_cases hp : p.1 = k
    · simp [aggStore, hp, aggFind, h, ih]
    · simp [aggStore, hp, aggFind, ih]

theorem process_filters (st : AggState) (rel : ocdsRelease) :
    (process st rel).filters = st.filters := by
  unfold process
  dsimp only
  repeat' split <;> try rfl

theorem process_aggFind (st : AggState) (rel : ocdsRelease) (cid : String) :
    aggFind (process st rel).aggregates cid
      = keptStep st.filters cid (aggFind st.aggregates cid) rel := by
  unfold process
  by_cases hGuard : isContractRelease rel ∧ matchesFilters rel st.filters
  · simp only [hGuard, not_true_eq_false, if_false]
    match hCan : canonicalContractID rel with
    | none => simp [keptStep, relevantTo, aggEligible, hCan]
    | some contractID =>
      match hVal : releaseValue rel with
      | none => simp [keptStep, relevantTo, aggEligible, hGuard.1, hGuard.2, hVal]
      | some amount =>
        by_cases hPos : amount ≤ 0
        · simp [keptStep, relevantTo, aggEligible, hGuard.1, hGuard.2, hVal, hPos]
        · simp only [hPos, if_false, hGuard.2, not_true_eq_false]
          have hElig : aggEligible st.filters rel = true := by
            simp [aggEligible, hGuard.1, hGuard.2, hVal, hPos]
          by_cases hcid : contractID = cid
          · subst hcid
            have hRel : relevantTo st.filters contractID rel = true := by
              simp [relevantTo, hElig, hCan]
            simp only [keptStep, hRel, if_true]
            match hFind : aggFind st.aggregates contractID with
            | some entry =>
              by_cases hTime : parseReleaseTime rel.date ≤ entry.updatedAt
              · simp [hFind, hTime, not_lt.mpr hTime]
              · simp [hFind, hTime, lt_of_not_le hTime, aggFind_aggStore_self,
                  releaseToAgg, hVal]
            | none =>
              simp [hFind, aggFind_aggStore_self, releaseToAgg, hVal]
          · have hRel : relevantTo st.filters cid rel = false := by
              simp [relevantTo, hCan, hcid]
            simp only [keptStep, hRel, if_false]
            match hFind : aggFind st.aggregates contractID with
            | some entry =>
              by_cases hTime : parseReleaseTime rel.date ≤ entry.updatedAt
              · simp [hFind, hTime]
              · simp [hFind, hTime, aggFind_aggStore_other _ _ _ _ hcid]
            | none =>
              simp [hFind, aggFind_aggStore_other _ _ _ _ hcid]
  · have hGuard' : ¬ (isContractRelease rel = true ∧ matchesFilters rel st.filters = true) :=
      hGuard
    simp only [hGuard', not_false_eq_true, if_true]
    have hElig : aggEligible st.filters rel = false := by
      rcases not_and_or.mp hGuard with h | h
      · simp [aggEligible, Bool.eq_false_iff.mpr h]
      · simp [aggEligible, Bool.eq_false_iff.mpr h]
    simp [keptStep, relevantTo, hElig]

/-- The "later release strictly wins" selection step. -/
def pickLatest (acc : Option ocdsRelease) (r : ocdsRelease) : Option ocdsRelease :=
  match acc with
  | none => some r
  | some b => if parseReleaseTime b.date < parseReleaseTime r.date then some r else acc

theorem latestFirst_eq_foldl (l : List ocdsRelease) :
    latestFirst l = l.foldl pickLatest none := rfl

theorem foldl_process_aggFind (rels : List ocdsRelease) (st : AggState) (cid : String) :
    aggFind (rels.foldl process st).aggregates cid
      = rels.foldl (keptStep st.filters cid) (aggFind st.aggregates cid) := by
  induction rels generalizing st with
  | nil => rfl
  | cons r rest ih =>
    simp only [List.foldl_cons]
    rw [ih (process st r), process_filters, process_aggFind]

theorem foldl_keptStep_filter (f : SearchRequest) (cid : String) (rels : List ocdsRelease)
    (acc : Option contractAggregate) :
    rels.foldl (keptStep f cid) acc
      = (rels.filter (relevantTo f cid)).foldl (keptStep f cid) acc := by
  induction rels generalizing acc with
  | nil => rfl
  | cons r rest ih =>
    by_cases h : relevantTo f cid r = true
    · simp [List.filter_cons, h, ih]
    · have hstep : keptStep f cid acc r = acc := by
        simp [keptStep, Bool.eq_false_iff.mpr h]
      simp [List.filter_cons, Bool.eq_false_iff.mpr h, hstep, ih]

theorem foldl_keptStep_eq_pickLatest (f : SearchRequest) (cid : String)
    (l : List ocdsRelease) (opt : Option ocdsRelease)
    (hall : ∀ r ∈ l, relevantTo f cid r = true) :
    l.foldl (keptStep f cid) (opt.map releaseToAgg)
      = (l.foldl pickLatest opt).map releaseToAgg := by
  induction l generalizing opt with
  | nil => rfl
  | cons r rest ih =>
    have hr : relevantTo f cid r = true := hall r (List.mem_cons_self r rest)
    have hrest : ∀ x ∈ rest, relevantTo f cid x = true := fun x hx =>
      hall x (List.mem_cons_of_mem r hx)
    have hstep : keptStep f cid (opt.map releaseToAgg) r
        = (pickLatest opt r).map releaseToAgg := by
      cases opt with
      | none => simp [keptStep, hr, pickLatest]
      | some b =>
        by_cases ht : parseReleaseTime b.date < parseReleaseTime r.date
        · simp [keptStep, hr, pickLatest, releaseToAgg, ht]
        · simp [keptStep, hr, pickLatest, releaseToAgg, ht]
    simp only [List.foldl_cons, hstep, ih _ hrest]

/-- C2 key lemma: the final aggregate entry of a contract id is the image of
the "latest first" selection over the relevant releases. -/
theorem runAggregator_aggFind (req : SearchRequest) (rels : List ocdsRelease) (cid : String) :
    aggFind (runAggregator req rels).aggregates cid
      = (latestFirst (aggRelevant (aggFilters req) cid rels)).map releaseToAgg := by
  have h0 : (newContractAggregator req).filters = aggFilters req := rfl
  have h1 : aggFind (newContractAggregator req).aggregates cid = none := rfl
  rw [runAggregator, foldl_process_aggFind, h0, h1]
  rw [foldl_keptStep_filter, aggRelevant_eq_filter, latestFirst_eq_foldl]
  have := foldl_keptStep_eq_pickLatest (aggFilters req) cid
    (rels.filter (relevantTo (aggFilters req) cid)) none
    (fun r hr => (List.mem_filter.mp hr).2)
  simpa using this

theorem latestFirst_append (l : List ocdsRelease) (r : ocdsRelease) :
    latestFirst (l ++ [r]) = pickLatest (latestFirst l) r := by
  simp [latestFirst_eq_foldl, List.foldl_append]

theorem foldl_pickLatest_some (l : List ocdsRelease) (b : ocdsRelease) :
    ∃ c, l.foldl pickLatest (some b) = some c := by
  induction l generalizing b with
  | nil => exact ⟨b, rfl⟩
  | cons r rest ih =>
    simp only [List.foldl_cons, pickLatest]
    by_cases h : parseReleaseTime b.date < parseReleaseTime r.date
    · simpa [h] using ih r
    · simpa [h] using ih b

theorem latestFirst_eq_none_iff (l : List ocdsRelease) :
    latestFirst l = none ↔ l = [] := by
  cases l with
  | nil => simp [latestFirst]
  | cons r rest =>
    simp only [latestFirst_eq_foldl, List.foldl_cons]
    have : pickLatest none r = some r := rfl
    rw [this]
    obtain ⟨c, hc⟩ := foldl_pickLatest_some rest r
    simp [hc]

/-- C2 key lemma: the selected release is the first one attaining the
maximum release date: strictly later than everything before it, at least as
late as everything after it. -/
theorem latestFirst_decomp (l : List ocdsRelease) (r : ocdsRelease)
    (h : latestFirst l = some r) :
    ∃ l₁ l₂, l = l₁ ++ r :: l₂ ∧
      (∀ x ∈ l₁, parseReleaseTime x.date < parseReleaseTime r.date) ∧
      (∀ x ∈ l₂, parseReleaseTime x.date ≤ parseReleaseTime r.date) := by
  induction l using List.reverseRecOn generalizing r with
  | nil => simp [latestFirst] at h
  | append_singleton l a ih =>
    rw [latestFirst_append] at h
    cases hl : latestFirst l with
    | none =>
      have hnil : l = [] := (latestFirst_eq_none_iff l).mp hl
      subst hnil
      rw [hl] at h
      have : a = r := by simpa [pickLatest] using h
      subst this
      exact ⟨[], [], rfl, by simp, by simp⟩
    | some b =>
      rw [hl] at h
      obtain ⟨l₁, l₂, hdec, hlt, hle⟩ := ih b hl
      by_cases ht : parseReleaseTime b.date < parseReleaseTime a.date
      · have har : a = r := by simpa [pickLatest, ht] using h
        subst har
        refine ⟨l, [], by simp, ?_, by simp⟩
        intro x hx
        rw [hdec] at hx
        rcases List.mem_append.mp hx with hx1 | hx2
        · exact lt_trans (hlt x hx1) ht
        · rcases List.mem_cons.mp hx2 with hb | hx3
          · rw [hb]; exact ht
          · exact lt_of_le_of_lt (hle x hx3) ht
      · have hbr : b = r := by simpa [pickLatest, ht] using h
        subst hbr
        refine ⟨l₁, l₂ ++ [a], by simp [hdec], hlt, ?_⟩
        intro x hx
        rcases List.mem_append.mp hx with hx1 | hx2
        · exact hle x hx1
        · have : x = a := by simpa using hx2
          rw [this]
          exact le_of_not_lt ht

theorem mem_aggStore_keys (l : List (String × contractAggregate)) (k x : String)
    (v : contractAggregate) :
    x ∈ (aggStore l k v).map Prod.fst ↔ x ∈ l.map Prod.fst ∨ x = k := by
  induction l with
  | nil => simp [aggStore]
  | cons p rest ih =>
    by_cases h : p.1 = k
    · subst h
      simp [aggStore]
      tauto
    · simp [aggStore, h, ih]
      tauto

theorem aggStore_keys_nodup (l : List (String × contractAggregate)) (k : String)
    (v : contractAggregate) (h : (l.map Prod.fst).Nodup) :
    ((aggStore l k v).map Prod.fst).Nodup := by
  induction l with
  | nil => simp [aggStore]
  | cons p rest ih =>
    simp only [List.map_cons, List.nodup_cons] at h
    by_cases hp : p.1 = k
    · subst hp
      simpa [aggStore, List.nodup_cons] using h
    · have := ih h.2
      simp only [aggStore, hp, if_false, List.map_cons, List.nodup_cons]
      refine ⟨?_, this⟩
      rw [mem_aggStore_keys]
      rintro (hmem | heq)
      · exact h.1 hmem
      · exact hp heq

theorem process_aggregates_cases (st : AggState) (rel : ocdsRelease) :
    (process st rel).aggregates = st.aggregates ∨
      ∃ k v, (process st rel).aggregates = aggStore st.aggregates k v := by
  unfold process
  dsimp only
  repeat' split
  all_goals first
    | (left; rfl)
    | (right; exact ⟨_, _, rfl⟩)

theorem process_keys_nodup (st : AggState) (rel : ocdsRelease)
    (h : (st.aggregates.map Prod.fst).Nodup) :
    ((process st rel).aggregates.map Prod.fst).Nodup := by
  rcases process_aggregates_cases st rel with heq | ⟨k, v, heq⟩
  · rw [heq]; exact h
  · rw [heq]; exact aggStore_keys_nodup _ _ _ h

theorem runAggregator_keys_nodup (req : SearchRequest) (rels : List ocdsRelease) :
    ((runAggregator req rels).aggregates.map Prod.fst).Nodup := by
  have : ∀ (l : List ocdsRelease) (st : AggState),
      (st.aggregates.map Prod.fst).Nodup →
      ((l.foldl process st).aggregates.map Prod.fst).Nodup := by
    intro l
    induction l with
    | nil => intro st h; exact h
    | cons r rest ih =>
      intro st h
      exact ih (process st r) (process_keys_nodup st r h)
  exact this rels (newContractAggregator req) (by simp [newContractAggregator])

theorem aggFind_eq_of_mem (l : List (String × contractAggregate)) (k : String)
    (v : contractAggregate) (hnd : (l.map Prod.fst).Nodup) (hmem : (k, v) ∈ l) :
    aggFind l k = some v := by
  induction l with
  | nil => simp at hmem
  | cons p rest ih =>
    simp only [List.map_cons, List.nodup_cons] at hnd
    rcases List.mem_cons.mp hmem with heq | hmem'
    · rw [← heq]
      simp [aggFind]
    · have hne : p.1 ≠ k := by
        intro hk
        exact hnd.1 (hk ▸ List.mem_map_of_mem Prod.fst hmem')
      simp [aggFind, hne, ih hnd.2 hmem']

theorem aggTotal_eq_sum (st : AggState) :
    aggTotal st = (st.aggregates.map fun p => p.2.value).sum := by
  have : ∀ (l : List (String × contractAggregate)) (a : Decimal),
      l.foldl (fun acc p => acc + p.2.value) a = a + (l.map fun p => p.2.value).sum := by
    intro l
    induction l with
    | nil => intro a; simp
    | cons p rest ih =>
      intro a
      simp [ih, add_assoc]
  simpa [aggTotal] using this st.aggregates 0

/-- The value the spec expects to be kept for a contract id. -/
def keptValue (filters : SearchRequest) (rels : List ocdsRelease) (cid : String) : Decimal :=
  ((latestFirst (aggRelevant filters cid rels)).map fun r => (releaseValue r).getD 0).getD 0

/-- C2: for every run of the aggregator and every canonical contract id,
(1) the final entry for that id is exactly the image of the first release
attaining the maximum release date among the relevant ones (contract-tagged,
filter-passing, positive value, same canonical id); (2) the selected release
is strictly later than every relevant release processed before it and at
least as late as every one processed after it (so ties keep the first
observed); (3) the contract ids of the final map are pairwise distinct and
the run's total is the sum of the kept values over them. -/
theorem aggregator_keeps_latest (req : SearchRequest) (rels : List ocdsRelease) (cid : String) :
    (aggFind (runAggregator req rels).aggregates cid
      = (latestFirst (aggRelevant (aggFilters req) cid rels)).map releaseToAgg) ∧
    (∀ r, latestFirst (aggRelevant (aggFilters req) cid rels) = some r →
      ∃ l₁ l₂, aggRelevant (aggFilters req) cid rels = l₁ ++ r :: l₂ ∧
        (∀ x ∈ l₁, parseReleaseTime x.date < parseReleaseTime r.date) ∧
        (∀ x ∈ l₂, parseReleaseTime x.date ≤ parseReleaseTime r.date)) ∧
    ((runAggregator req rels).aggregates.map Prod.fst).Nodup ∧
    aggTotal (runAggregator req rels)
      = (((runAggregator req rels).aggregates.map Prod.fst).map
          (keptValue (aggFilters req) rels)).sum := by
  refine ⟨runAggregator_aggFind req rels cid,
    fun r h => latestFirst_decomp _ r h,
    runAggregator_keys_nodup req rels, ?_⟩
  rw [aggTotal_eq_sum, List.map_map]
  have hnd := runAggregator_keys_nodup req rels
  have hcong : ∀ p ∈ (runAggregator req rels).aggregates,
      p.2.value = (keptValue (aggFilters req) rels ∘ Prod.fst) p := by
    rintro ⟨k, v⟩ hmem
    have hfind : aggFind (runAggregator req rels).aggregates k = some v :=
      aggFind_eq_of_mem _ k v hnd hmem
    have hchar := runAggregator_aggFind req rels k
    rw [hfind] at hchar
    cases hlf : latestFirst (aggRelevant (aggFilters req) k rels) with
    | none =>
      rw [hlf, Option.map_none'] at hchar
      exact Option.noConfusion hchar
    | some r =>
      rw [hlf] at hchar
      simp only [Option.map_some', Option.some.injEq] at hchar
      rw [hchar]
      simp [keptValue, hlf, releaseToAgg]
  rw [List.map_congr_left hcong]

/-! ## C3: the `OnAnyMatch` sink versus the filter guard -/

/-- A valued contract release whose supplier is `Acme Pty Ltd`. -/
def relAcme : ocdsRelease :=
  { id := "rel-1", ocid := "ocds-1", date := some (dateSec 2024 1 1), tag := ["contract"],
    parties := [⟨"Acme Pty Ltd", ["supplier"]⟩, ⟨"ATO", ["buyer"]⟩],
    contracts := [⟨"CN1", "Consulting", "services", some ⟨100⟩, []⟩],
    tender := none }

/-- A request whose company filter does not match `Acme Pty Ltd`. -/
def reqOther : SearchRequest := { company := "other" }

/-- C3 evaluation at the failing input: `relAcme` is a valued release
(contract tag, canonical id `CN1`, positive amount `100`) that fails the
company filter, and `process` never invokes the `OnAnyMatch` sink for it —
the first guard of `process` tests `matchesFilters` before the sink call,
although the code's own comment says the sink is called "regardless of user
filters" (the second, post-sink filter test is unreachable). -/
theorem process_skips_sink_on_filter_miss :
    isContractRelease relAcme = true ∧
    canonicalContractID relAcme = some "CN1" ∧
    releaseValue relAcme = some 100 ∧
    (0 : Decimal) < 100 ∧
    matchesFilters relAcme (aggFilters reqOther) = false ∧
    (runAggregator reqOther [relAcme]).anyMatchLog = [] := by
  refine ⟨rfl, by decide, rfl, by norm_num, by decide, ?_⟩
  decide

/-! ## C7: canonical contract id stripping -/

/-- A release whose first contract id contains `-A` followed by non-digits. -/
def relDashA : ocdsRelease :=
  { id := "rel-2", ocid := "ocds-2", date := some (dateSec 2024 1 1), tag := ["contract"],
    parties := [], contracts := [⟨"CN-ABC", "", "", some ⟨1⟩, []⟩], tender := none }

/-- C7 counterexample: the id `CN-ABC` has no trailing `-A<digits>` suffix,
yet `canonicalContractID` truncates it to `CN` instead of returning it
unchanged — `strings.Index(id, "-A")` stops at the first `-A` wherever it
occurs and whatever follows. -/
theorem canonicalContractID_not_suffix_only :
    canonicalContractID relDashA = some "CN" ∧ ("CN" : String) ≠ "CN-ABC" := by
  refine ⟨by decide, by decide⟩

theorem firstIdxOfSub_eq_none_of_not_contains (l : List Char) (pat : List Char)
    (h : (firstIdxOfSub l pat).isSome = false) : firstIdxOfSub l pat = none := by
  cases hfi : firstIdxOfSub l pat with
  | none => rfl
  | some i => rw [hfi] at h; simp at h

theorem firstIdxOfSub_dashA_concat (suf : List Char) :
    ∀ pre : List Char, firstIdxOfSub pre ['-', 'A'] = none →
      firstIdxOfSub (pre ++ '-' :: 'A' :: suf) ['-', 'A'] = some pre.length := by
  intro pre
  induction pre with
  | nil =>
    intro _
    simp [firstIdxOfSub, leadsWith]
  | cons c cs ih =>
    intro h
    have hsplit : leadsWith ['-', 'A'] (c :: cs) = false ∧
        firstIdxOfSub cs ['-', 'A'] = none := by
      by_cases hl : leadsWith ['-', 'A'] (c :: cs) = true
      · exfalso
        rw [firstIdxOfSub] at h
        simp [hl] at h
      · refine ⟨Bool.eq_false_iff.mpr hl, ?_⟩
        rw [firstIdxOfSub] at h
        simpa [Bool.eq_false_iff.mpr hl] using h
    have hnolead : leadsWith ['-', 'A'] (c :: (cs ++ '-' :: 'A' :: suf)) = false := by
      by_cases hc : c = '-'
      · subst hc
        simp only [leadsWith, decide_eq_true_eq, Bool.true_and] at hsplit ⊢
        cases cs with
        | nil => simp [leadsWith]
        | cons d ds =>
          have hd : leadsWith ['A'] (d :: ds) = false := by
            simpa [leadsWith] using hsplit.1
          simp only [List.cons_append]
          simpa [leadsWith] using hd
      · have hc2 : ('-' : Char) ≠ c := fun hh => hc hh.symm
        simp [leadsWith, hc2]
    rw [List.cons_append, firstIdxOfSub, hnolead]
    simp only [Bool.false_eq_true, if_false, ih hsplit.2, Option.map_some']
    simp [List.length_cons]

theorem mk_toList_eq (s : String) : String.mk s.toList = s := rfl

/-- C7 (amended): the canonical contract id truncates the raw id (first
contract's id, falling back to the first amendment's id) at the *first*
occurrence of the substring `-A` when it occurs at a positive index —
regardless of what follows the `-A` and of whether it is a suffix; an id
containing no `-A` at all is returned unchanged. -/
theorem canonicalContractID_first_dashA (rel : ocdsRelease) (id : String)
    (hraw : rawContractID rel = some id) :
    (strContainsSub id "-A" = false → canonicalContractID rel = some id) ∧
    (∀ pre suf : String, id = pre ++ "-A" ++ suf → pre ≠ "" →
      strContainsSub pre "-A" = false → canonicalContractID rel = some pre) := by
  constructor
  · intro hno
    have hnone : firstIdxOfSub id.toList ['-', 'A'] = none :=
      firstIdxOfSub_eq_none_of_not_contains _ _ hno
    unfold canonicalContractID
    rw [hraw]
    dsimp only
    rw [hnone]
  · intro pre suf hid hpre hno
    have hnone : firstIdxOfSub pre.data ['-', 'A'] = none :=
      firstIdxOfSub_eq_none_of_not_contains _ _ hno
    have hdashA : ("-A" : String).data = ['-', 'A'] := rfl
    have hlist : id.data = pre.data ++ '-' :: 'A' :: suf.data := by
      rw [hid, String.data_append, String.data_append, hdashA]
      simp
    have hfi : firstIdxOfSub id.data ['-', 'A'] = some pre.data.length := by
      rw [hlist]
      exact firstIdxOfSub_dashA_concat suf.data pre.data hnone
    have hlen : 0 < pre.data.length := by
      cases hl : pre.data with
      | nil =>
        exfalso
        apply hpre
        have := congrArg String.mk hl
        simpa [mk_toList_eq] using this
      | cons c cs => simp
    have htake : id.data.take pre.data.length = pre.data := by
      rw [hlist]
      exact List.take_left pre.data ('-' :: 'A' :: suf.data)
    have hmk : String.mk (id.data.take pre.data.length) = pre := by
      rw [htake]
    have hfi2 : firstIdxOfSub id.toList ['-', 'A'] = some pre.data.length := hfi
    unfold canonicalContractID
    rw [hraw]
    dsimp only
    rw [hfi2]
    dsimp only
    rw [if_pos hlen]
    exact congrArg some hmk

/-- C7 witness: the amended truncation theorem applied to the release whose
contract id is `CN123-A1` (the amendment-suffix case truncates to `CN123`). -/
theorem canonicalContractID_first_dashA_witness :
    canonicalContractID
        { id := "r", ocid := "o", date := some 0, tag := ["contract"], parties := [],
          contracts := [⟨"CN123-A1", "", "", some ⟨1⟩, []⟩], tender := none }
      = some "CN123" := by
  have h := canonicalContractID_first_dashA
    { id := "r", ocid := "o", date := some 0, tag := ["contract"], parties := [],
      contracts := [⟨"CN123-A1", "", "", some ⟨1⟩, []⟩], tender := none }
    "CN123-A1" (by decide)
  exact h.2 "CN123" "1" (by decide) (by decide) (by decide)

/-! ## C4: the source registry (`sources.go`) -/

/-- The `Source` implementations defined in the collector package
(`federalSource`, `vicSource`, `nswSource`, `saSource`, `waSource`). -/
inductive SourceImpl
  | federal
  | vic
  | nsw
  | sa
  | wa
deriving DecidableEq, Repr

/-- Each implementation's `ID()` method. -/
def sourceID : SourceImpl → String
  | .federal => defaultSourceID
  | .vic => "vic"
  | .nsw => "nsw"
  | .sa => "sa"
  | .wa => "wa"

/-- The process-wide `sourceRegistry` map. -/
abbrev SourceRegistry := List (String × SourceImpl)

/-- Go map assignment on the registry. -/
def regStore (reg : SourceRegistry) (k : String) (v : SourceImpl) : SourceRegistry :=
  match reg with
  | [] => [(k, v)]
  | (k', v') :: rest =>
    if k' = k then (k', v) :: rest else (k', v') :: regStore rest k v

/-- Registry lookup. -/
def regFind (reg : SourceRegistry) (k : String) : Option SourceImpl :=
  match reg with
  | [] => none
  | (k', v) :: rest => if k' = k then some v else regFind rest k

/-- `registerSource` (the `src == nil` guard cannot fire for a concrete
implementation; `normalizeSourceID` never returns the empty string). -/
def registerSource (reg : SourceRegistry) (src : SourceImpl) : SourceRegistry :=
  let id := normalizeSourceID (sourceID src)
  if id = "" then reg else regStore reg id src

/-- `ensureSourcesRegistered`: registers the federal, VIC and NSW sources —
and no others, although `saSource` and `waSource` exist in the package. -/
def ensureSourcesRegistered (reg : SourceRegistry) : SourceRegistry :=
  registerSource (registerSource (registerSource reg .federal) .vic) .nsw

/-- The registry as populated at startup (`init` calls
`ensureSourcesRegistered` on the empty map). -/
def sourceRegistry : SourceRegistry := ensureSourcesRegistered []

/-- Byte-wise lexicographic order on Go strings (ASCII inputs). -/
def charListLt : List Char → List Char → Bool
  | [], [] => false
  | [], _ :: _ => true
  | _ :: _, [] => false
  | a :: as, b :: bs =>
    if a.toNat < b.toNat then true
    else if b.toNat < a.toNat then false
    else charListLt as bs

/-- Go's `<` on strings. -/
def strLtGo (a b : String) : Bool := charListLt a.toList b.toList

/-- Insert into a sorted list of keys (`sort.Strings` helper). -/
def insertSorted (x : String) : List String → List String
  | [] => [x]
  | y :: ys => if strLtGo x y then x :: y :: ys else y :: insertSorted x ys

/-- `sort.Strings`. -/
def sortStrings : List String → List String
  | [] => []
  | x :: xs => insertSorted x (sortStrings xs)

/-- `strings.Join ks ", "`. -/
def joinComma : List String → String
  | [] => ""
  | [x] => x
  | x :: xs => x ++ ", " ++ joinComma xs

/-- `resolveSource`. -/
def resolveSource (id : String) : Except String SourceImpl :=
  let normalized := normalizeSourceID id
  let normalized := if normalized = "" then defaultSourceID else normalized
  match regFind sourceRegistry normalized with
  | some src => Except.ok src
  | none =>
    Except.error ("unknown source \"" ++ normalized ++ "\"; available: "
      ++ joinComma (sortStrings (sourceRegistry.map Prod.fst)))

/-- C4 evaluation at the failing inputs: `federal`, `vic` and `nsw` resolve
to sources with matching ids (and the empty id defaults to `federal`), but
`sa` and `wa` — whose implementations exist in the package — are never
registered by `ensureSourcesRegistered`, so resolving them fails with the
enumeration `federal, nsw, vic`. -/
theorem resolveSource_sa_wa_unregistered :
    (resolveSource "federal" = Except.ok SourceImpl.federal ∧
      sourceID SourceImpl.federal = "federal") ∧
    (resolveSource "nsw" = Except.ok SourceImpl.nsw ∧ sourceID SourceImpl.nsw = "nsw") ∧
    (resolveSource "vic" = Except.ok SourceImpl.vic ∧ sourceID SourceImpl.vic = "vic") ∧
    resolveSource "" = Except.ok SourceImpl.federal ∧
    resolveSource "sa" = Except.error "unknown source \"sa\"; available: federal, nsw, vic" ∧
    resolveSource "wa" = Except.error "unknown source \"wa\"; available: federal, nsw, vic" := by
  refine ⟨⟨rfl, rfl⟩, ⟨rfl, rfl⟩, ⟨rfl, rfl⟩, rfl, rfl, rfl⟩

/-! ## C9: `splitDateWindows` (`root.go`) -/

/-- `maxWindowDays = 31`. -/
def maxWindowDays : Int := 31

/-- `dateWindow`: one fetch window (`start`, `end`). -/
structure dateWindow where
  start : Int
  stop : Int
deriving DecidableEq, Repr

/-- The `for current.Before(end)` loop of `splitDateWindows`, with `kd` the
window width in seconds.  The `fuel` argument is only an upper bound on the
number of iterations (each iteration advances `current` by at least one
second, so `(e - current) + 1` steps always suffice; see
`splitLoopF_fuel_irrelevant`): it makes the recursion structural. -/
def splitLoopF (e kd : Int) : Nat → Int → List dateWindow
  | 0, _ => []
  | fuel + 1, current =>
    if current < e then
      let next := if e < current + kd then e else current + kd
      if current < next then ⟨current, next⟩ :: splitLoopF e kd fuel next
      else [⟨current, next⟩]
    else []

/-- `splitDateWindows`. -/
def splitDateWindows (s e windowDays : Int) : List dateWindow :=
  let wd := if windowDays ≤ 0 then maxWindowDays else windowDays
  let kd := wd * secPerDay
  if e < s then [⟨s, e⟩]
  else if s = e then [⟨s, e⟩]
  else
    let ws := splitLoopF e kd ((e - s).toNat + 1) s
    if ws.isEmpty then [⟨s, e⟩] else ws

theorem splitLoopF_at_end (e kd : Int) : ∀ f, splitLoopF e kd f e = [] := by
  intro f
  cases f <;> simp [splitLoopF]

theorem splitLoopF_fuel_irrelevant (e kd : Int) (hk : 0 < kd) :
    ∀ fuel₁ fuel₂ current, (e - current).toNat < fuel₁ → (e - current).toNat < fuel₂ →
      splitLoopF e kd fuel₁ current = splitLoopF e kd fuel₂ current := by
  intro fuel₁
  induction fuel₁ with
  | zero => intro fuel₂ current h1 _; omega
  | succ f1 ih =>
    intro fuel₂ current h1 h2
    cases fuel₂ with
    | zero => omega
    | succ f2 =>
      simp only [splitLoopF]
      by_cases hce : current < e
      · simp only [hce, if_true]
        by_cases hbig : e < current + kd
        · simp [hbig, hce, splitLoopF_at_end]
        · have hnext : current < current + kd := by omega
          simp only [hbig, if_false, hnext, if_true]
          have hle : current + kd ≤ e := by omega
          have hm1 : (e - (current + kd)).toNat < f1 := by omega
          have hm2 : (e - (current + kd)).toNat < f2 := by omega
          rw [ih f2 (current + kd) hm1 hm2]
      · simp [hce]

theorem splitLoopF_spec (e kd : Int) (hk : 0 < kd) :
    ∀ fuel current, (e - current).toNat < fuel → current < e →
      (splitLoopF e kd fuel current ≠ [] ∧
       (splitLoopF e kd fuel current).head?.map dateWindow.start = some current ∧
       (splitLoopF e kd fuel current).getLast?.map dateWindow.stop = some e ∧
       List.Chain' (fun a b => a.stop = b.start) (splitLoopF e kd fuel current) ∧
       ∀ w ∈ splitLoopF e kd fuel current,
         w.start < w.stop ∧ w.stop - w.start ≤ kd ∧ current ≤ w.start ∧ w.stop ≤ e) := by
  intro fuel
  induction fuel with
  | zero => intro current h1 _; omega
  | succ f ih =>
    intro current h1 h2
    by_cases hlt : current + kd < e
    · have h3 : current < current + kd := by omega
      have hred : splitLoopF e kd (f + 1) current
          = ⟨current, current + kd⟩ :: splitLoopF e kd f (current + kd) := by
        have hbig : ¬ e < current + kd := by omega
        simp [splitLoopF, h2, hbig, h3]
      have hm : (e - (current + kd)).toNat < f := by omega
      obtain ⟨hne, hhead, hlast, hchain, hbounds⟩ := ih (current + kd) hm hlt
      rw [hred]
      refine ⟨by simp, by simp, ?_, ?_, ?_⟩
      · cases hws : splitLoopF e kd f (current + kd) with
        | nil => exact absurd hws hne
        | cons w ws' =>
          rw [hws] at hlast
          rw [List.getLast?_cons_cons]
          exact hlast
      · rw [List.chain'_cons']
        refine ⟨?_, hchain⟩
        intro y hy
        cases hws : splitLoopF e kd f (current + kd) with
        | nil => exact absurd hws hne
        | cons w ws' =>
          rw [hws] at hhead hy
          simp only [List.head?_cons, Option.map_some', Option.some.injEq] at hhead
          simp only [List.head?_cons, Option.mem_def, Option.some.injEq] at hy
          subst hy
          simpa using hhead.symm
      · intro w hw
        rcases List.mem_cons.mp hw with hw1 | hw2
        · subst hw1
          dsimp only
          refine ⟨h3, by omega, by omega, by omega⟩
        · obtain ⟨ha, hb, hc, hd⟩ := hbounds w hw2
          exact ⟨ha, hb, by omega, hd⟩
    · have hred : splitLoopF e kd (f + 1) current = [⟨current, e⟩] := by
        by_cases hbig : e < current + kd
        · simp [splitLoopF, h2, hbig, splitLoopF_at_end]
        · have heq : current + kd = e := by omega
          have h3 : current < current + kd := by omega
          simp [splitLoopF, h2, hbig, h3, heq, splitLoopF_at_end]
      rw [hred]
      refine ⟨by simp, by simp, by simp, by simp, ?_⟩
      intro w hw
      simp only [List.mem_singleton] at hw
      subst hw
      dsimp only
      exact ⟨h2, by omega, by omega, by omega⟩

theorem splitLoopF_covers (e kd : Int) (hk : 0 < kd) :
    ∀ fuel current, (e - current).toNat < fuel → current < e →
      ∀ t : Int, current ≤ t → t ≤ e →
        ∃ w ∈ splitLoopF e kd fuel current, w.start ≤ t ∧ t ≤ w.stop := by
  intro fuel
  induction fuel with
  | zero => intro current h1 _; omega
  | succ f ih =>
    intro current h1 h2 t ht1 ht2
    by_cases hlt : current + kd < e
    · have h3 : current < current + kd := by omega
      have hred : splitLoopF e kd (f + 1) current
          = ⟨current, current + kd⟩ :: splitLoopF e kd f (current + kd) := by
        have hbig : ¬ e < current + kd := by omega
        simp [splitLoopF, h2, hbig, h3]
      rw [hred]
      by_cases htw : t ≤ current + kd
      · exact ⟨⟨current, current + kd⟩, List.mem_cons_self _ _, ht1, htw⟩
      · have hm : (e - (current + kd)).toNat < f := by omega
        obtain ⟨w, hwmem, hw1, hw2⟩ := ih (current + kd) hm hlt t (by omega) ht2
        exact ⟨w, List.mem_cons_of_mem _ hwmem, hw1, hw2⟩
    · have hred : splitLoopF e kd (f + 1) current = [⟨current, e⟩] := by
        by_cases hbig : e < current + kd
        · simp [splitLoopF, h2, hbig, splitLoopF_at_end]
        · have heq : current + kd = e := by omega
          have h3 : current < current + kd := by omega
          simp [splitLoopF, h2, hbig, h3, heq, splitLoopF_at_end]
      rw [hred]
      exact ⟨⟨current, e⟩, List.mem_singleton_self _, ht1, ht2⟩

theorem splitDateWindows_eq_loop (s e k : Int) (hk : 0 < k) (hse : s < e) :
    splitDateWindows s e k = splitLoopF e (k * secPerDay) ((e - s).toNat + 1) s := by
  have hkd : 0 < k * secPerDay := by
    have : (0 : Int) < secPerDay := by decide
    positivity
  have hk' : ¬ k ≤ 0 := by omega
  have h1 : ¬ e < s := by omega
  have h2 : s ≠ e := by omega
  have hfuel : (e - s).toNat < (e - s).toNat + 1 := Nat.lt_succ_self _
  have hne := (splitLoopF_spec e (k * secPerDay) hkd ((e - s).toNat + 1) s hfuel hse).1
  cases hws : splitLoopF e (k * secPerDay) ((e - s).toNat + 1) s with
  | nil => exact absurd hws hne
  | cons w ws' => simp [splitDateWindows, hk', h1, h2, hws]

/-- C9: for a positive window length `k` (in days), `splitDateWindows`
(1) returns the single unchanged window on degenerate input `e ≤ s`;
(2) on `s < e` returns a non-empty chain of contiguous windows — the first
starts at `s`, the last ends at `e`, each window's end is the next one's
start, every window is non-degenerate of length at most `k` days, and a
point lies in `[s, e]` exactly when some window contains it (so the windows
are non-overlapping except at shared endpoints and cover the range exactly);
(3) concretely, splitting 2024-01-01..2024-03-03 into ≤31-day windows gives
2024-01-01..2024-02-01 and 2024-02-01..2024-03-03. -/
theorem splitDateWindows_spec (s e k : Int) (hk : 0 < k) :
    (e ≤ s → splitDateWindows s e k = [⟨s, e⟩]) ∧
    (s < e →
      splitDateWindows s e k ≠ [] ∧
      (splitDateWindows s e k).head?.map dateWindow.start = some s ∧
      (splitDateWindows s e k).getLast?.map dateWindow.stop = some e ∧
      List.Chain' (fun a b => a.stop = b.start) (splitDateWindows s e k) ∧
      (∀ w ∈ splitDateWindows s e k, w.start < w.stop ∧ w.stop - w.start ≤ k * secPerDay) ∧
      (∀ t : Int, (s ≤ t ∧ t ≤ e) ↔ ∃ w ∈ splitDateWindows s e k, w.start ≤ t ∧ t ≤ w.stop)) ∧
    splitDateWindows (dateSec 2024 1 1) (dateSec 2024 3 3) 31
      = [⟨dateSec 2024 1 1, dateSec 2024 2 1⟩, ⟨dateSec 2024 2 1, dateSec 2024 3 3⟩] := by
  have hkd : 0 < k * secPerDay := by
    have : (0 : Int) < secPerDay := by decide
    positivity
  refine ⟨?_, ?_, ?_⟩
  · intro he
    by_cases hlt : e < s
    · simp [splitDateWindows, hlt]
    · have heq : s = e := by omega
      simp [splitDateWindows, hlt, heq]
  · intro hse
    rw [splitDateWindows_eq_loop s e k hk hse]
    have hfuel : (e - s).toNat < (e - s).toNat + 1 := Nat.lt_succ_self _
    obtain ⟨hne, hhead, hlast, hchain, hbounds⟩ :=
      splitLoopF_spec e (k * secPerDay) hkd ((e - s).toNat + 1) s hfuel hse
    refine ⟨hne, hhead, hlast, hchain, ?_, ?_⟩
    · intro w hw
      obtain ⟨ha, hb, _, _⟩ := hbounds w hw
      exact ⟨ha, hb⟩
    · intro t
      constructor
      · rintro ⟨ht1, ht2⟩
        exact splitLoopF_covers e (k * secPerDay) hkd ((e - s).toNat + 1) s hfuel hse t ht1 ht2
      · rintro ⟨w, hwmem, hw1, hw2⟩
        obtain ⟨_, _, hc, hd⟩ := hbounds w hwmem
        exact ⟨le_trans hc hw1, le_trans hw2 hd⟩
  · decide

/-! ## C10: `resolveDates` and `validateDateOrder` (`root.go`) -/

/-- `defaultLookbackPeriod = 20` (years). -/
def defaultLookbackPeriod : Int := 20

/-- `resolveDates`: zero dates are defaulted (`end` to `now`, `start` to
`end` minus the lookback period in years), then a reversed pair is swapped. -/
def resolveDates (start stop lookbackPeriod now : Int) : Int × Int :=
  let lb := if lookbackPeriod ≤ 0 then defaultLookbackPeriod else lookbackPeriod
  let endUTC := if stop = goZeroTime then now else stop
  let startUTC := if start = goZeroTime then addYearsGo (-lb) endUTC else start
  if endUTC < startUTC then (endUTC, startUTC) else (startUTC, endUTC)

/-- `validateDateOrder` (the CLI-level check): an error exactly when both
dates are non-zero and start is after end. -/
def validateDateOrder (start stop : Int) : Option String :=
  if start ≠ goZeroTime ∧ stop ≠ goZeroTime ∧ stop < start then
    some "start date cannot be after end date"
  else none

/-- C10: for non-zero dates with start strictly after end, the library's
`resolveDates` swaps the pair (it never fails on a reversed range); only the
CLI's `validateDateOrder` rejects the reversed range with an error. -/
theorem resolveDates_swaps_reversed (s e lb now : Int)
    (hs : s ≠ goZeroTime) (he : e ≠ goZeroTime) (hlt : e < s) :
    resolveDates s e lb now = (e, s) ∧
    validateDateOrder s e = some "start date cannot be after end date" := by
  constructor
  · simp [resolveDates, hs, he, hlt]
  · simp [validateDateOrder, hs, he, hlt]

/-- C10 witness: a concrete reversed range (2024-05-01 down to 2024-01-01). -/
theorem resolveDates_swaps_reversed_witness :
    resolveDates (dateSec 2024 5 1) (dateSec 2024 1 1) 20 0
        = (dateSec 2024 1 1, dateSec 2024 5 1) ∧
      validateDateOrder (dateSec 2024 5 1) (dateSec 2024 1 1)
        = some "start date cannot be after end date" :=
  resolveDates_swaps_reversed (dateSec 2024 5 1) (dateSec 2024 1 1) 20 0
    (by decide) (by decide) (by decide)

/-- C9 witness: the windowing theorem applied at the concrete S2 range. -/
theorem splitDateWindows_spec_witness :
    splitDateWindows (dateSec 2024 1 1) (dateSec 2024 3 3) 31
      = [⟨dateSec 2024 1 1, dateSec 2024 2 1⟩, ⟨dateSec 2024 2 1, dateSec 2024 3 3⟩] :=
  (splitDateWindows_spec (dateSec 2024 1 1) (dateSec 2024 3 3) 31 (by decide)).2.2

/-! ## C6: lake partition paths (`cache.go`: `partitionKeyLake`,
`sanitizePartitionComponent`, `financialYearLabel`, `monthLabel`) -/

/-- Decimal digits of `n` (most significant first); `fuel` bounds the
recursion depth and any `fuel > log10 n` gives the same result. -/
def natDigitsAux : Nat → Nat → List Char
  | 0, _ => []
  | fuel + 1, n =>
    if n = 0 then []
    else natDigitsAux fuel (n / 10) ++ [Char.ofNat (48 + n % 10)]

/-- `fmt` rendering of a natural number (`%d`). -/
def natToStr (n : Nat) : String :=
  if n = 0 then "0" else String.mk (natDigitsAux (n + 1) n)

/-- `fmt` rendering of an integer (`%d`). -/
def intToStr (i : Int) : String :=
  if i < 0 then "-" ++ natToStr (-i).toNat else natToStr i.toNat

/-- Zero padding to a minimum width (`%0Nd` for non-negative values). -/
def padZeros (w : Nat) (s : String) : String :=
  if s.length < w then String.mk (List.replicate (w - s.length) '0') ++ s else s

/-- `financialYearLabel`: Australian FY [July, June], labelled
`fy=YYYY-YY` with `YY = (year+1) mod 100`. -/
def financialYearLabel (t : Int) : String :=
  let ymd := timeYMD t
  let year := if ymd.2.1 < 7 then ymd.1 - 1 else ymd.1
  "fy=" ++ intToStr year ++ "-" ++ padZeros 2 (intToStr (Int.tmod (year + 1) 100))

/-- `monthLabel`: `month=YYYY-MM` (zero time replaced by `now`). -/
def monthLabel (t now : Int) : String :=
  let ts := if t = goZeroTime then now else t
  let ymd := timeYMD ts
  "month=" ++ padZeros 4 (intToStr ymd.1) ++ "-" ++ padZeros 2 (intToStr ymd.2.1)

/-- Characters kept by the `[^a-z0-9_-]+` strip. -/
def sanitizeAllowed (c : Char) : Bool :=
  (97 ≤ c.toNat && c.toNat ≤ 122) || (48 ≤ c.toNat && c.toNat ≤ 57) || c = '_' || c = '-'

/-- `sanitizePartitionComponent` before its empty-string default: trim,
lowercase, spaces to underscores, strip everything outside `[a-z0-9_-]`. -/
def sanitizeCore (v : String) : String :=
  String.mk ((strSpacesToUnderscores (strToLower (strTrimSpace v))).toList.filter sanitizeAllowed)

/-- `sanitizePartitionComponent`: the sanitized component, with the empty
result replaced by `"unknown"` — so it never returns the empty string. -/
def sanitizePartitionComponent (v : String) : String :=
  if sanitizeCore v = "" then "unknown" else sanitizeCore v

/-- `partitionKeyLake`, as the list of path segments joined by
`filepath.Join` (the zero release time is replaced by `now`).  The
`unknown_agency` / `unknown_company` fallbacks are kept from the source but
are unreachable because `sanitizePartitionComponent` never returns `""`. -/
def partitionKeyLake (ts : Int) (source agency company : String) (now : Int) : List String :=
  let t := if ts = goZeroTime then now else ts
  let fy := financialYearLabel t
  let month := monthLabel t now
  let src0 := sanitizePartitionComponent (normalizeSourceID source)
  let src := if src0 = "" then sanitizePartitionComponent defaultSourceID else src0
  let ag0 := sanitizePartitionComponent agency
  let ag := if ag0 = "" then "unknown_agency" else ag0
  let co0 := sanitizePartitionComponent company
  let co := if co0 = "" then "unknown_company" else co0
  ["source=" ++ src, fy, month, "agency=" ++ ag, "company=" ++ co]

/-- C6 counterexample: with empty agency and company the partition path is
`source=federal/fy=2024-25/month=2024-07/agency=unknown/company=unknown`;
it contains no `agency=unknown_agency` or `company=unknown_company` segment
(the claimed fallbacks are dead code, preempted by
`sanitizePartitionComponent`'s own `"unknown"` default). -/
theorem partitionKeyLake_not_unknown_agency :
    partitionKeyLake (dateSec 2024 7 10) "federal" "" "" 0
      = ["source=federal", "fy=2024-25", "month=2024-07",
         "agency=unknown", "company=unknown"] ∧
    "agency=unknown_agency" ∉ partitionKeyLake (dateSec 2024 7 10) "federal" "" "" 0 ∧
    "company=unknown_company" ∉ partitionKeyLake (dateSec 2024 7 10) "federal" "" "" 0 := by
  refine ⟨by decide, by decide, by decide⟩

/-- C6 (amended): whenever the agency and company sanitize to nothing
(empty, whitespace-only, or without a single `[a-z0-9_-]` character after
lowering), the lake partition path carries the segments `agency=unknown`
and `company=unknown`. -/
theorem partitionKeyLake_unknown_segments (ts now : Int) (source agency company : String)
    (hA : sanitizeCore agency = "") (hC : sanitizeCore company = "") :
    ∃ src fy month, partitionKeyLake ts source agency company now
      = [src, fy, month, "agency=unknown", "company=unknown"] := by
  refine ⟨"source=" ++
      (if sanitizePartitionComponent (normalizeSourceID source) = ""
       then sanitizePartitionComponent defaultSourceID
       else sanitizePartitionComponent (normalizeSourceID source)),
    financialYearLabel (if ts = goZeroTime then now else ts),
    monthLabel (if ts = goZeroTime then now else ts) now, ?_⟩
  simp [partitionKeyLake, sanitizePartitionComponent, hA, hC]

/-- C6 witness: the amended theorem at whitespace-only agency and a
punctuation-only company. -/
theorem partitionKeyLake_unknown_segments_witness :
    ∃ src fy month, partitionKeyLake (dateSec 2024 7 10) "federal" "  " "&&" 0
      = [src, fy, month, "agency=unknown", "company=unknown"] :=
  partitionKeyLake_unknown_segments (dateSec 2024 7 10) 0 "federal" "  " "&&"
    (by decide) (by decide)

/-! ## C8: retry/backoff in the federal OCDS client (`root.go`: `doRequest`,
`shouldRetryStatus`).  Time is in seconds (`initialRetryDelay = time.Second`);
the network is an oracle giving each attempt's outcome. -/

/-- `requestMaxRetries = 4`. -/
def requestMaxRetries : Nat := 4

/-- `initialRetryDelay = time.Second` (one second). -/
def initialRetryDelay : Int := 1

/-- The decoded `ocdsResponse` envelope. -/
structure ocdsResponseGo where
  releases : List ocdsRelease
  next : String
  errorCode : Int
  message : String
deriving DecidableEq, Repr

/-- One attempt's outcome: a transport error, or an HTTP response with its
status and (for status 200) the decode result — `none` is a body that fails
JSON decoding. -/
inductive httpOutcome
  | transportErr
  | response (status : Nat) (body : Option ocdsResponseGo)
deriving DecidableEq, Repr

/-- `shouldRetryStatus`: 429 or any 5xx. -/
def shouldRetryStatus (code : Nat) : Bool :=
  code == 429 || (500 ≤ code && code < 600)

/-- The result of `doRequest`, instrumented with the number of attempts made
and the sequence of backoff sleeps taken between attempts. -/
structure requestTrace where
  outcome : Except String ocdsResponseGo
  attempts : Nat
  sleeps : List Int

/-- One attempt's handling in `doRequest`'s loop body: either the request
returns immediately (`done`) or the error is recorded and the loop retries
(`retry`). -/
inductive stepResult
  | done (out : Except String ocdsResponseGo)
  | retry (errMsg : String)

/-- The body of one `doRequest` iteration: status 200 decodes (decode
failure and `errorCode ≠ 0` fail immediately), 429/5xx and transport errors
retry, any other status fails immediately. -/
def classifyAttempt : httpOutcome → stepResult
  | httpOutcome.transportErr => stepResult.retry "transport error"
  | httpOutcome.response c b =>
    if c = 200 then
      match b with
      | none => stepResult.done (Except.error "decode error")
      | some decoded =>
        if decoded.errorCode ≠ 0 then
          stepResult.done (Except.error ("ocds api error " ++ intToStr decoded.errorCode
            ++ ": " ++ decoded.message))
        else stepResult.done (Except.ok decoded)
    else if shouldRetryStatus c then
      stepResult.retry ("ocds api returned " ++ natToStr c)
    else stepResult.done (Except.error ("ocds api returned " ++ natToStr c))

/-- The retry loop of `doRequest`: `remaining` counts the retries still
allowed (`requestMaxRetries - attempt`); `backoff` doubles after each sleep;
on exhaustion the last recorded error is returned. -/
def doRequestFrom (oracle : Nat → httpOutcome) :
    Nat → Nat → Int → List Int → requestTrace
  | 0, attempt, _, sleeps =>
    match classifyAttempt (oracle attempt) with
    | stepResult.done out => ⟨out, attempt + 1, sleeps⟩
    | stepResult.retry msg => ⟨Except.error msg, attempt + 1, sleeps⟩
  | r + 1, attempt, backoff, sleeps =>
    match classifyAttempt (oracle attempt) with
    | stepResult.done out => ⟨out, attempt + 1, sleeps⟩
    | stepResult.retry _ =>
      doRequestFrom oracle r (attempt + 1) (backoff * 2) (sleeps ++ [backoff])

/-- `doRequest`: up to `requestMaxRetries` retries, starting from
`initialRetryDelay` (coerced to one second if non-positive). -/
def doRequestGo (oracle : Nat → httpOutcome) : requestTrace :=
  let backoff := if initialRetryDelay ≤ 0 then 1 else initialRetryDelay
  doRequestFrom oracle requestMaxRetries 0 backoff []

/-- Is an attempt outcome one the client retries on? -/
def retryAttempt : httpOutcome → Bool
  | httpOutcome.transportErr => true
  | httpOutcome.response c _ => shouldRetryStatus c

/-- The doubling backoff sequence starting at `b`. -/
def backoffList : Nat → Int → List Int
  | 0, _ => []
  | n + 1, b => b :: backoffList n (b * 2)

theorem classifyAttempt_retry (o : httpOutcome) (h : retryAttempt o = true) :
    ∃ msg, classifyAttempt o = stepResult.retry msg := by
  cases o with
  | transportErr => exact ⟨"transport error", rfl⟩
  | response c b =>
    have hcr : shouldRetryStatus c = true := h
    have hc200 : ¬ c = 200 := by
      intro hc
      rw [hc] at hcr
      simp [shouldRetryStatus] at hcr
    exact ⟨"ocds api returned " ++ natToStr c, by simp [classifyAttempt, hc200, hcr]⟩

theorem doRequestFrom_success (oracle : Nat → httpOutcome) (payload : ocdsResponseGo)
    (hec : payload.errorCode = 0) :
    ∀ n remaining attempt backoff sleeps, n ≤ remaining →
      (∀ i, i < n → retryAttempt (oracle (attempt + i)) = true) →
      oracle (attempt + n) = httpOutcome.response 200 (some payload) →
      doRequestFrom oracle remaining attempt backoff sleeps
        = ⟨Except.ok payload, attempt + n + 1, sleeps ++ backoffList n backoff⟩ := by
  intro n
  induction n with
  | zero =>
    intro remaining attempt backoff sleeps _ _ hok
    rw [Nat.add_zero] at hok
    have hclass : classifyAttempt (oracle attempt) = stepResult.done (Except.ok payload) := by
      rw [hok]
      simp [classifyAttempt, hec]
    cases remaining with
    | zero => simp only [doRequestFrom, hclass, backoffList]; simp
    | succ r => simp only [doRequestFrom, hclass, backoffList]; simp
  | succ n ih =>
    intro remaining attempt backoff sleeps hle hretry hok
    obtain ⟨r, rfl⟩ : ∃ r, remaining = r + 1 := ⟨remaining - 1, by omega⟩
    have h0 := hretry 0 (Nat.succ_pos n)
    rw [Nat.add_zero] at h0
    obtain ⟨msg, hclass⟩ := classifyAttempt_retry _ h0
    have hrec := ih r (attempt + 1) (backoff * 2) (sleeps ++ [backoff]) (by omega)
      (fun i hi => by
        have := hretry (i + 1) (by omega)
        rwa [show attempt + (i + 1) = attempt + 1 + i from by omega] at this)
      (by rwa [show attempt + 1 + n = attempt + (n + 1) from by omega])
    have harith : attempt + 1 + n + 1 = attempt + (n + 1) + 1 := by omega
    have hsl : (sleeps ++ [backoff]) ++ backoffList n (backoff * 2)
        = sleeps ++ backoffList (n + 1) backoff := by
      simp [backoffList]
    simp only [doRequestFrom, hclass]
    rw [hrec, harith, hsl]

theorem doRequestFrom_exhausted (oracle : Nat → httpOutcome) :
    ∀ remaining attempt backoff sleeps,
      (∀ i, i ≤ remaining → retryAttempt (oracle (attempt + i)) = true) →
      ∃ msg, doRequestFrom oracle remaining attempt backoff sleeps
        = ⟨Except.error msg, attempt + remaining + 1, sleeps ++ backoffList remaining backoff⟩ := by
  intro remaining
  induction remaining with
  | zero =>
    intro attempt backoff sleeps hretry
    have h0 := hretry 0 (le_refl 0)
    rw [Nat.add_zero] at h0
    obtain ⟨msg, hclass⟩ := classifyAttempt_retry _ h0
    refine ⟨msg, ?_⟩
    simp only [doRequestFrom, hclass, backoffList]
    simp
  | succ r ih =>
    intro attempt backoff sleeps hretry
    have h0 := hretry 0 (Nat.zero_le _)
    rw [Nat.add_zero] at h0
    obtain ⟨msg0, hclass⟩ := classifyAttempt_retry _ h0
    obtain ⟨msg, hrec⟩ := ih (attempt + 1) (backoff * 2) (sleeps ++ [backoff])
      (fun i hi => by
        have := hretry (i + 1) (by omega)
        rwa [show attempt + (i + 1) = attempt + 1 + i from by omega] at this)
    have harith : attempt + 1 + r + 1 = attempt + (r + 1) + 1 := by omega
    have hsl : (sleeps ++ [backoff]) ++ backoffList r (backoff * 2)
        = sleeps ++ backoffList (r + 1) backoff := by
      simp [backoffList]
    refine ⟨msg, ?_⟩
    simp only [doRequestFrom, hclass]
    rw [hrec, harith, hsl]

theorem backoffList_take (n : Nat) (hn : n ≤ 4) :
    backoffList n 1 = ([1, 2, 4, 8] : List Int).take n := by
  interval_cases n <;> rfl

theorem doRequestGo_eq (oracle : Nat → httpOutcome) :
    doRequestGo oracle = doRequestFrom oracle 4 0 1 [] := by
  unfold doRequestGo requestMaxRetries initialRetryDelay
  norm_num

/-- The S7 payload (decoded body of the successful third attempt). -/
def payloadS7 : ocdsResponseGo := ⟨[], "", 0, ""⟩

/-- The S7 upstream: 500, 500, then 200 with a decodable body. -/
def oracleS7 : Nat → httpOutcome := fun i =>
  if i < 2 then httpOutcome.response 500 none
  else httpOutcome.response 200 (some payloadS7)

/-- C8: (1) after `n ≤ 4` transport-error/429/5xx attempts and a decodable
200, `doRequest` returns the decoded payload having made `n+1` attempts and
slept the first `n` of `1s, 2s, 4s, 8s`; (2) when every attempt is
retryable the request fails after exactly 5 attempts (4 retries) with
sleeps `1s, 2s, 4s, 8s`; (3) a first response with any non-2xx status other
than 429/5xx fails immediately: one attempt, no sleep; (4) for upstream
`500, 500, 200` the client makes exactly three attempts, sleeps `1s` then
`2s`, and returns the decoded payload of the third. -/
theorem doRequest_retry_spec :
    (∀ (oracle : Nat → httpOutcome) (n : Nat) (payload : ocdsResponseGo),
      n ≤ requestMaxRetries → payload.errorCode = 0 →
      (∀ i, i < n → retryAttempt (oracle i) = true) →
      oracle n = httpOutcome.response 200 (some payload) →
      doRequestGo oracle = ⟨Except.ok payload, n + 1, ([1, 2, 4, 8] : List Int).take n⟩) ∧
    (∀ oracle : Nat → httpOutcome,
      (∀ i, i ≤ requestMaxRetries → retryAttempt (oracle i) = true) →
      ∃ msg, doRequestGo oracle = ⟨Except.error msg, 5, [1, 2, 4, 8]⟩) ∧
    (∀ (oracle : Nat → httpOutcome) (c : Nat) (b : Option ocdsResponseGo),
      oracle 0 = httpOutcome.response c b →
      (c < 200 ∨ 300 ≤ c) → c ≠ 429 → ¬ (500 ≤ c ∧ c < 600) →
      doRequestGo oracle
        = ⟨Except.error ("ocds api returned " ++ natToStr c), 1, []⟩) ∧
    doRequestGo oracleS7 = ⟨Except.ok payloadS7, 3, [1, 2]⟩ := by
  refine ⟨?_, ?_, ?_, ?_⟩
  · intro oracle n payload hn hec hretry hok
    rw [doRequestGo_eq]
    have := doRequestFrom_success oracle payload hec n 4 0 1 [] hn
      (fun i hi => by simpa using hretry i hi) (by simpa using hok)
    rw [this, backoffList_take n hn]
    simp
  · intro oracle hretry
    obtain ⟨msg, h⟩ := doRequestFrom_exhausted oracle 4 0 1 []
      (fun i hi => by simpa using hretry i hi)
    refine ⟨msg, ?_⟩
    rw [doRequestGo_eq, h]
    rfl
  · intro oracle c b h0 hrange h429 h5xx
    have hc200 : ¬ c = 200 := by omega
    have hcr : shouldRetryStatus c = false := by
      simp only [shouldRetryStatus, Bool.or_eq_false_iff, beq_eq_false_iff_ne, ne_eq,
        Bool.and_eq_false_iff, decide_eq_false_iff_not, not_le, not_lt]
      omega
    have hclass : classifyAttempt (oracle 0)
        = stepResult.done (Except.error ("ocds api returned " ++ natToStr c)) := by
      rw [h0]
      simp [classifyAttempt, hc200, hcr]
    rw [doRequestGo_eq]
    simp only [doRequestFrom, hclass]
  · rw [doRequestGo_eq]
    rfl

/-! ## C1: `RunSearchWithCache` (`cache.go`) -/

/-- Is `c` an ASCII digit? -/
def isDigitGo (c : Char) : Bool := 48 ≤ c.toNat && c.toNat ≤ 57

/-- Accumulate a digit string (`strconv.Atoi` core). -/
def parseDigitsAux : List Char → Nat → Option Nat
  | [], acc => some acc
  | c :: cs, acc =>
    if isDigitGo c then parseDigitsAux cs (acc * 10 + (c.toNat - 48)) else none

/-- `strconv.Atoi` (base 10; overflow is irrelevant at these magnitudes). -/
def goAtoi (s : String) : Option Int :=
  match s.toList with
  | [] => none
  | '+' :: rest =>
    if rest.isEmpty then none else (parseDigitsAux rest 0).map Int.ofNat
  | '-' :: rest =>
    if rest.isEmpty then none else (parseDigitsAux rest 0).map fun n => -(Int.ofNat n)
  | cs => (parseDigitsAux cs 0).map Int.ofNat

/-- `resolveLookbackPeriod`: a positive override wins; otherwise
`AUSTENDER_LOOKBACK_PERIOD` (falling back to the legacy
`AUSTENDER_LOOKBACK_YEARS`) when it parses to a positive integer;
otherwise the default of 20 years. -/
def resolveLookbackPeriod (override : Int) (periodEnv yearsEnv : String) : Int :=
  if 0 < override then override
  else
    let raw := strTrimSpace periodEnv
    let raw := if raw = "" then strTrimSpace yearsEnv else raw
    if raw ≠ "" then
      match goAtoi raw with
      | some yrs => if 0 < yrs then yrs else defaultLookbackPeriod
      | none => defaultLookbackPeriod
    else defaultLookbackPeriod

/-- `cacheKey`. -/
def cacheKey (keyword company agency dateType source : String) : String :=
  "s=" ++ normalizeSourceID source ++ "|k=" ++ keyword ++ "|c=" ++ company
    ++ "|a=" ++ agency ++ "|d=" ++ dateType

/-- Digits of the matched number token after an optional leading minus:
integer digits, then an optional fraction (`\d+(?:\.\d+)?`). -/
def numTokenDigits (cs : List Char) : List Char :=
  let ds := cs.takeWhile isDigitGo
  let rest := cs.dropWhile isDigitGo
  match rest with
  | '.' :: r2 =>
    let ds2 := r2.takeWhile isDigitGo
    if ds2.isEmpty then ds else ds ++ '.' :: ds2
  | _ => ds

/-- First match of the regexp `-?\d+(?:\.\d+)?` in the character list. -/
def findNumToken : List Char → Option (List Char)
  | [] => none
  | c :: cs =>
    if c = '-' then
      match cs.takeWhile isDigitGo with
      | [] => findNumToken cs
      | _ :: _ => some ('-' :: numTokenDigits cs)
    else if isDigitGo c then some (numTokenDigits (c :: cs))
    else findNumToken cs

/-- Numeric value of a digit list (most significant first). -/
def digitsVal (ds : List Char) : Nat :=
  ds.foldl (fun acc c => acc * 10 + (c.toNat - 48)) 0

/-- `decimal.NewFromString` on a well-formed `-?\d+(\.\d+)?` token. -/
def decFromToken (t : List Char) : Decimal :=
  match t with
  | '-' :: rest => -(decFromToken rest)
  | _ =>
    let intPart := t.takeWhile (· ≠ '.')
    let rest := t.dropWhile (· ≠ '.')
    let frac := rest.drop 1
    (digitsVal intPart : Decimal) + (digitsVal frac : Decimal) / ((10 : Decimal) ^ frac.length)

/-- `parseMoneyToDecimal`: trim, drop commas, empty → 0, else the first
numeric token (an error when there is none). -/
def parseMoneyToDecimal (v : String) : Except String Decimal :=
  let clean := strTrimSpace v
  let clean := String.mk (clean.toList.filter (fun c => ¬ c = ','))
  if clean = "" then Except.ok 0
  else
    match findNumToken clean.toList with
    | none => Except.error ("no numeric value in " ++ v)
    | some t => Except.ok (decFromToken t)

/-- Insert thousands separators into a reversed digit list. -/
def groupRev : List Char → Nat → List Char
  | [], _ => []
  | c :: cs, cnt =>
    if cnt = 3 then ',' :: c :: groupRev cs 1
    else c :: groupRev cs (cnt + 1)

/-- `formatMoneyDecimal` (`accounting.FormatMoney` with symbol `$`,
precision 2): sign, dollar sign, comma-grouped dollars, two cent digits. -/
def formatMoneyDecimal (q : Decimal) : String :=
  let neg := q < 0
  let a := if q < 0 then -q else q
  let cents : Int := Rat.floor (a * 100 + 1 / 2)
  let dollars := cents / 100
  let rem := cents % 100
  let ds := (natToStr dollars.toNat).toList
  (if neg then "-" else "") ++ "$" ++ String.mk (groupRev ds.reverse 0).reverse
    ++ "." ++ padZeros 2 (natToStr rem.toNat)

/-- The environment `RunSearchWithCache` runs against: the relevant
environment variables, the wall clock, the SQLite checkpoint table, the
months that already hold a Parquet part in the lake directory (keyed by
sanitized source, `fy=` label and `month=` label — the path components of
`hasMonthPartition`'s probe), the lake query (`cacheManager.queryCache`,
whose outcome over the on-disk Parquet data is treated as an oracle), and
the underlying `runSearchFunc` source (likewise an oracle returning the
formatted total). -/
structure CacheEnv where
  useCacheEnv : String
  lookbackPeriodEnv : String
  lookbackYearsEnv : String
  now : Int
  checkpoints : CheckpointStore
  monthParts : List (String × String × String)
  lakeQuery : SearchRequest → Except String (Decimal × Bool)
  runSearch : SearchRequest → Except String String

/-- `dataLake.hasMonthPartition`: does the month directory of `ts` under the
(sanitized) source already contain at least one `.parquet` file? -/
def hasMonthPartition (env : CacheEnv) (source : String) (ts : Int) : Bool :=
  let sourceKey := sanitizePartitionComponent (normalizeSourceID source)
  env.monthParts.contains (sourceKey, financialYearLabel ts, monthLabel ts env.now)

/-- `dataLake.shouldFetchWindow`: fetch unless the month containing the
window's start is already cached. -/
def shouldFetchWindow (env : CacheEnv) (source : String) (win : dateWindow) : Bool :=
  ! hasMonthPartition env source win.start

/-- `windowsCached`: every ≤31-day window of `[start, end]` has its start
month cached (the `l == nil` guard cannot fire: `newCacheManager` always
builds the lake). -/
def windowsCached (env : CacheEnv) (source : String) (s e : Int) : Bool :=
  (splitDateWindows s e maxWindowDays).all fun w =>
    ! shouldFetchWindow env (normalizeSourceID source) w

/-- The working request of `RunSearchWithCache`: normalized source, resolved
lookback and resolved date range. -/
def cacheWorkingRequest (env : CacheEnv) (req : SearchRequest) : SearchRequest :=
  let resolvedSource := normalizeSourceID req.source
  let resolvedLookback :=
    resolveLookbackPeriod req.lookbackPeriod env.lookbackPeriodEnv env.lookbackYearsEnv
  let r := resolveDates req.startDate req.endDate resolvedLookback env.now
  { req with
    source := resolvedSource
    startDate := r.1
    endDate := r.2
    lookbackPeriod := resolvedLookback }

/-- The observable result of one `RunSearchWithCache` call: the returned
triple, instrumented with how many times the underlying source
(`runSearchFunc`, hence HTTP) was invoked and which checkpoint write, if
any, was performed. -/
structure CacheRunOut where
  total : String
  cacheHit : Bool
  err : Option String
  sourceCalls : Nat
  savedCheckpoint : Option (String × Int)

/-- `RunSearchWithCache`, step for step.  Writes to the lake writer pool and
the daily reindex are lake-internal effects that do not feed back into the
returned value; they are not modelled. -/
def RunSearchWithCache (env : CacheEnv) (req : SearchRequest) : CacheRunOut :=
  let useCache := strToLower (strTrimSpace env.useCacheEnv)
  if useCache = "false" ∨ useCache = "0" then
    match env.runSearch { req with source := normalizeSourceID req.source } with
    | Except.ok res => ⟨res, false, none, 1, none⟩
    | Except.error e => ⟨"", false, some e, 1, none⟩
  else
    let resolvedSource := normalizeSourceID req.source
    let checkpointKey := cacheKey req.keyword req.company req.agency req.dateType resolvedSource
    let lastRun := loadCheckpoint env.checkpoints checkpointKey
    let workingReq := cacheWorkingRequest env req
    let startResolved := workingReq.startDate
    let endResolved := workingReq.endDate
    match env.lakeQuery workingReq with
    | Except.error e => ⟨"", false, some e, 0, none⟩
    | Except.ok (cachedTotal, cacheHit) =>
      if cacheHit ∧ windowsCached env resolvedSource startResolved endResolved then
        ⟨formatMoneyDecimal cachedTotal, true, none, 0, none⟩
      else
        let searchStart :=
          if lastRun ≠ goZeroTime ∧ startResolved < lastRun ∧ lastRun < endResolved
          then lastRun else startResolved
        let incReq : SearchRequest :=
          { keyword := req.keyword, company := req.company, agency := req.agency,
            source := resolvedSource, startDate := searchStart, endDate := endResolved,
            dateType := req.dateType, lookbackPeriod := workingReq.lookbackPeriod }
        match env.runSearch incReq with
        | Except.error e => ⟨"", cacheHit, some e, 1, none⟩
        | Except.ok incStr =>
          match parseMoneyToDecimal incStr with
          | Except.error e => ⟨"", cacheHit, some e, 1, none⟩
          | Except.ok incDec =>
            let combined := cachedTotal + incDec
            let finalCheckpoint := if endResolved = goZeroTime then env.now else endResolved
            ⟨formatMoneyDecimal combined, cacheHit, none, 1,
              some (checkpointKey, finalCheckpoint)⟩

/-- C1: when the cache is enabled, the lake query over the working request
reports a cache hit, and every ≤31-day window of the resolved range
`[startResolved, endResolved]` already has a Parquet partition for the
month containing the window's start, `RunSearchWithCache` returns the
formatted cached total with `cacheHit = true` and no error, never invokes
the underlying source (zero HTTP requests) and writes no checkpoint.  Since
the call is a pure function of the environment and performs no write, a
second identical call after it (no upstream changes) returns the same total
and again makes zero HTTP requests. -/
theorem RunSearchWithCache_short_circuit (env : CacheEnv) (req : SearchRequest) (ct : Decimal)
    (hUse : strToLower (strTrimSpace env.useCacheEnv) ≠ "false" ∧
      strToLower (strTrimSpace env.useCacheEnv) ≠ "0")
    (hQuery : env.lakeQuery (cacheWorkingRequest env req) = Except.ok (ct, true))
    (hMonths : ∀ w ∈ splitDateWindows (cacheWorkingRequest env req).startDate
        (cacheWorkingRequest env req).endDate maxWindowDays,
      hasMonthPartition env (normalizeSourceID (normalizeSourceID req.source)) w.start = true) :
    RunSearchWithCache env req = ⟨formatMoneyDecimal ct, true, none, 0, none⟩ := by
  have hWC : windowsCached env (normalizeSourceID req.source)
      (cacheWorkingRequest env req).startDate (cacheWorkingRequest env req).endDate = true := by
    rw [windowsCached, List.all_eq_true]
    intro w hw
    simp [shouldFetchWindow, hMonths w hw]
  rw [RunSearchWithCache]
  rw [if_neg (by
    rintro (h | h)
    · exact hUse.1 h
    · exact hUse.2 h)]
  simp only [hQuery]
  simp [hWC]

/-- A fully cached July-2024 environment: the lake holds a partition for
month 2024-07 of the federal source and the lake query reports a hit. -/
def envC1 : CacheEnv :=
  { useCacheEnv := ""
    lookbackPeriodEnv := ""
    lookbackYearsEnv := ""
    now := dateSec 2024 8 1
    checkpoints := []
    monthParts := [("federal", "fy=2024-25", "month=2024-07")]
    lakeQuery := fun _ => Except.ok (100, true)
    runSearch := fun _ => Except.ok "$0.00" }

/-- The S3-style request: July 2024, one-year lookback. -/
def reqC1 : SearchRequest :=
  { company := "kpmg", startDate := dateSec 2024 7 1, endDate := dateSec 2024 7 31,
    lookbackPeriod := 1 }

/-- C1 witness: the short-circuit theorem at the concrete cached July-2024
environment. -/
theorem RunSearchWithCache_short_circuit_witness :
    RunSearchWithCache envC1 reqC1 = ⟨formatMoneyDecimal 100, true, none, 0, none⟩ :=
  RunSearchWithCache_short_circuit envC1 reqC1 100 (by decide) (by rfl) (by decide)

/-- C2 witness: the latest-wins theorem applied to a one-release run. -/
theorem aggregator_keeps_latest_witness :
    aggFind (runAggregator {} [relAcme]).aggregates "CN1"
      = (latestFirst (aggRelevant (aggFilters {}) "CN1" [relAcme])).map releaseToAgg :=
  (aggregator_keeps_latest {} [relAcme] "CN1").1

/-- C8 witness: the retry theorem's concrete S7 component. -/
theorem doRequest_retry_spec_witness :
    doRequestGo oracleS7 = ⟨Except.ok payloadS7, 3, [1, 2]⟩ :=
  doRequest_retry_spec.2.2.2
